import Mathlib

/-!
Verification development for the NBA data-preprocessing pipeline
(`preprocess.py`): `clean_data`, `feature_data`, `multicol_data`,
`transform_data`.

Modelling conventions:
  * Machine floats are modelled as exact rationals `ℚ`.  The numeric string
    literals occurring in this dataset (plain decimal tokens) are parsed
    exactly, so no rounding questions arise for the properties below.
  * A pandas `DataFrame` is a list of named, dtype-tagged columns
    (`Table`); `select_dtypes` is selection on the tag.
  * Fallible operations (parse errors, `KeyError`, sklearn shape errors)
    return `Option`.
  * The Pearson correlation matrix that `multicol_data` computes once
    upfront is passed as an explicit function `Mat`; `none` models a NaN
    entry (every float comparison with NaN is false).  `corrSpecB` ties a
    matrix to the data exactly (squared form, so everything stays in `ℚ`).
-/

namespace NBA

/-! ### Executable rational arithmetic

Batteries marks `Rat.add`, `Rat.sub`, `Rat.mul` and `Rat.inv` as
irreducible, so closed terms built from `+`, `-`, `*`, `/` on `ℚ` cannot
be evaluated by `decide`.  The embedding therefore spells its rational
arithmetic with the reducible `mkRat`/`Rat.divInt` primitives; the
`…_eq` lemmas prove each wrapper equal to the standard operation, so the
definitions below denote exactly the usual field operations. -/

def qadd (a b : ℚ) : ℚ := mkRat (a.num * b.den + b.num * a.den) (a.den * b.den)

def qsub (a b : ℚ) : ℚ := mkRat (a.num * b.den - b.num * a.den) (a.den * b.den)

def qmul (a b : ℚ) : ℚ := mkRat (a.num * b.num) (a.den * b.den)

def qinv (a : ℚ) : ℚ := Rat.divInt a.den a.num

def qdiv (a b : ℚ) : ℚ := qmul a (qinv b)

def qsum (xs : List ℚ) : ℚ := xs.foldr qadd 0

lemma qadd_eq (a b : ℚ) : qadd a b = a + b := (Rat.add_def' a b).symm

lemma qsub_eq (a b : ℚ) : qsub a b = a - b := (Rat.sub_def' a b).symm

lemma qmul_eq (a b : ℚ) : qmul a b = a * b := by
  rw [qmul, Rat.mul_def]
  exact (Rat.normalize_eq_mkRat _).symm

lemma qinv_eq (a : ℚ) : qinv a = a⁻¹ := (Rat.inv_def' a).symm

lemma qdiv_eq (a b : ℚ) : qdiv a b = a / b := by
  rw [qdiv, qmul_eq, qinv_eq, div_eq_mul_inv]

lemma qsum_eq (xs : List ℚ) : qsum xs = xs.sum := by
  induction xs with
  | nil => rfl
  | cons x xs ih => simp [qsum, List.foldr_cons, qadd_eq, List.sum_cons, ← ih]

/-! ### Python string/float primitives (on `List Char`) -/

/-- Value of a list of decimal digit characters, most significant first. -/
def digitsVal (cs : List Char) : Nat :=
  cs.foldl (fun a c => 10 * a + (c.toNat - 48)) 0

/-- Python `float(s)` on an unsigned decimal token: digits with at most one
dot, at least one digit overall (`"2.06"`, `".5"`, `"5."`; not `"."`, not
`"7,000,000"`).  Exponent/underscore/inf forms do not occur in this
dataset's formats and are out of the modelled subset. -/
def parseUnsignedFloat (cs : List Char) : Option ℚ :=
  let ip := cs.takeWhile (·.isDigit)
  let rest := cs.drop ip.length
  match rest with
  | [] => if ip.isEmpty then none else some (mkRat (digitsVal ip) 1)
  | '.' :: fp =>
      -- the exact value of "<ip>.<fp>": digits(ip ++ fp) / 10^|fp|
      if fp.all (·.isDigit) && (!ip.isEmpty || !fp.isEmpty) then
        some (mkRat (digitsVal (ip ++ fp)) (10 ^ fp.length))
      else none
  | _ => none

/-- Python `float` on a character list, allowing an optional leading
sign. -/
def parseFloatChars (cs : List Char) : Option ℚ :=
  match cs with
  | [] => none
  | c :: rest =>
      if c = '-' then (parseUnsignedFloat rest).map Neg.neg
      else if c = '+' then parseUnsignedFloat rest
      else parseUnsignedFloat (c :: rest)

/-- Python `float(s)`. -/
def parseFloat (s : String) : Option ℚ := parseFloatChars s.data

/-- Split a character list on a separator character (Python `s.split("/")`:
keeps empty segments). -/
def splitOnChar (sep : Char) (cs : List Char) : List (List Char) :=
  match cs with
  | [] => [[]]
  | c :: rest =>
      let tail := splitOnChar sep rest
      if c = sep then [] :: tail
      else
        match tail with
        | [] => [[c]]
        | seg :: segs => (c :: seg) :: segs

/-- Python `s.strip()`. -/
def stripWs (cs : List Char) : List Char :=
  ((cs.dropWhile (·.isWhitespace)).reverse.dropWhile (·.isWhitespace)).reverse

/-- Python `s.split()` (no argument): split on whitespace runs, dropping
empty fields. -/
def wsFields (cs : List Char) : List (List Char) :=
  (splitOnChar ' ' (cs.map (fun c => if c.isWhitespace then ' ' else c))).filter
    (fun f => !f.isEmpty)

/-- The token `x.split("/")[1].strip().split()[0]` extracted from a
`height`/`weight` string (`"6-9 / 2.06 m"` ↦ `"2.06"`); `none` models the
`IndexError` on a string without `/` or with an empty metric part. -/
def measureTok (s : String) : Option (List Char) :=
  match (splitOnChar '/' s.data).drop 1 with
  | [] => none
  | seg :: _ => (wsFields (stripWs seg)).head?

/-- `x.split("/")[1].strip().split()[0]` coerced to float (the `height` /
`weight` cleaning step). -/
def parseMeasure (s : String) : Option ℚ :=
  (measureTok s).bind parseFloatChars

/-- Python `x.replace('$', '')`. -/
def stripDollar (s : String) : String :=
  ⟨s.data.filter (· ≠ '$')⟩

/-! ### Dates (`pd.to_datetime` with explicit formats) -/

/-- A parsed datetime; only the year component is ever read downstream
(`.dt.year`), but month/day are kept and validated as `strptime` does. -/
structure Date where
  year : Int
  month : Nat
  day : Nat
deriving DecidableEq, Repr

def isLeap (y : Int) : Bool :=
  y % 4 = 0 && (y % 100 ≠ 0 || y % 400 = 0)

def daysInMonth (y : Int) (m : Nat) : Nat :=
  if m = 2 then (if isLeap y then 29 else 28)
  else if m = 4 || m = 6 || m = 9 || m = 11 then 30
  else 31

/-- `strptime` `%y` pivot: two-digit years `69..99` map to `19xx`,
`00..68` to `20xx`. -/
def pivotY2 (yy : Nat) : Int :=
  if 69 ≤ yy then 1900 + yy else 2000 + yy

/-- A 1- or 2-digit decimal field (as `strptime` numeric directives
accept). -/
def numField (cs : List Char) (maxLen : Nat) : Option Nat :=
  if !cs.isEmpty && cs.length ≤ maxLen && cs.all (·.isDigit) then
    some (digitsVal cs)
  else none

/-- `pd.to_datetime(_, format="%m/%d/%y")` on one cell. -/
def parseDateMDY (s : String) : Option Date :=
  match splitOnChar '/' s.data with
  | [ms, ds, ys] => do
      let m ← numField ms 2
      let d ← numField ds 2
      let yy ← numField ys 2
      let y := pivotY2 yy
      if 1 ≤ m && m ≤ 12 && 1 ≤ d && d ≤ daysInMonth y m then
        some ⟨y, m, d⟩
      else none
  | _ => none

/-- `pd.to_datetime(_, format="%Y")` on one cell (a year, as in the
`draft_year` column). -/
def parseYear (s : String) : Option Date := do
  let y ← numField s.data 4
  some ⟨(y : Int), 1, 1⟩

/-- `pd.to_datetime(_, format='NBA2k%y')` on one cell
(`"NBA2k20"` ↦ year 2020). -/
def parseVersion (s : String) : Option Date :=
  match s.data with
  | 'N' :: 'B' :: 'A' :: '2' :: 'k' :: rest => do
      let yy ← numField rest 2
      some ⟨pivotY2 yy, 1, 1⟩
  | _ => none

/-! ### Tables (pandas `DataFrame`) -/

/-- A column's data together with its dtype: `num` ↦ a numeric dtype
(`select_dtypes(['number'])`), `str` ↦ `object`/`category`, `dt` ↦
`datetime64` (selected by neither of the other two). -/
inductive ColData where
  | num (vals : List ℚ)
  | str (vals : List String)
  | dt (vals : List Date)
deriving DecidableEq, Repr

/-- A dataframe: named columns in order.  Duplicate labels are
representable, as in pandas. -/
abbrev Table := List (String × ColData)

def names (t : Table) : List String := t.map (·.1)

/-- `df[x]` (first column carrying the label; `none` models `KeyError`). -/
def getColData (t : Table) (x : String) : Option ColData :=
  (t.find? (fun c => c.1 == x)).map (·.2)

def getNumCol (t : Table) (x : String) : Option (List ℚ) :=
  match getColData t x with
  | some (.num v) => some v
  | _ => none

def getStrCol (t : Table) (x : String) : Option (List String) :=
  match getColData t x with
  | some (.str v) => some v
  | _ => none

def getDtCol (t : Table) (x : String) : Option (List Date) :=
  match getColData t x with
  | some (.dt v) => some v
  | _ => none

/-- `df[x] = data`: overwrite every column labelled `x` in place, or
append a new column at the end if the label is absent. -/
def setCol (t : Table) (x : String) (d : ColData) : Table :=
  if x ∈ names t then t.map (fun c => if c.1 = x then (x, d) else c)
  else t ++ [(x, d)]

/-- `df.drop(columns=[x], errors='ignore')`: remove every column labelled
`x`; a no-op when absent. -/
def dropCol (t : Table) (x : String) : Table :=
  t.filter (fun c => !(c.1 == x))

/-- `df.drop(columns=xs, errors='ignore')`. -/
def dropCols (t : Table) (xs : List String) : Table :=
  t.filter (fun c => !(xs.contains c.1))

/-- `df.select_dtypes(include=['number'])` as (name, values) pairs. -/
def numCols (t : Table) : List (String × List ℚ) :=
  t.filterMap (fun c => match c.2 with
    | .num v => some (c.1, v)
    | _ => none)

/-- Names of the numeric columns, in table order. -/
def numsOf (t : Table) : List String := (numCols t).map (·.1)

/-- `df.select_dtypes(include=['category', 'object'])` as
(name, values) pairs. -/
def strCols (t : Table) : List (String × List String) :=
  t.filterMap (fun c => match c.2 with
    | .str v => some (c.1, v)
    | _ => none)

/-- `series.nunique()` (no NaN occurs in the string columns modelled
here). -/
def nunique (vals : List String) : Nat := vals.dedup.length

def colLen : ColData → Nat
  | .num v => v.length
  | .str v => v.length
  | .dt v => v.length

/-- Every column has exactly `n` entries (dataframes are rectangular). -/
def Rect (t : Table) (n : Nat) : Prop := ∀ p ∈ t, colLen p.2 = n

instance (t : Table) (n : Nat) : Decidable (Rect t n) := by
  unfold Rect; infer_instance

/-! ### The Cleaner (`clean_data`) -/

/-- One row of the raw CSV, restricted to the columns `clean_data` and
`feature_data` touch.  `team` is `Option` because it is the one column
with missing values (filled with `"No Team"`). -/
structure RawRow where
  team : Option String
  b_day : String
  height : String
  weight : String
  salary : String
  country : String
  draft_year : String
  draft_round : String
  version : String
deriving DecidableEq, Repr

/-- One cleaned row. -/
structure CleanRow where
  team : String
  b_day : Date
  height : ℚ
  weight : ℚ
  salary : ℚ
  country : String
  draft_year : Date
  draft_round : String
  version : String
deriving DecidableEq, Repr

/-- The per-row effect of `clean_data` (all its column operations are
elementwise, and any cell-level parse failure aborts the whole call). -/
def cleanRow (r : RawRow) : Option CleanRow := do
  let bd ← parseDateMDY r.b_day
  let dy ← parseYear r.draft_year
  let team := r.team.getD "No Team"
  let h ← parseMeasure r.height
  let w ← parseMeasure r.weight
  let sal ← parseFloat (stripDollar r.salary)
  let country := if r.country ≠ "USA" then "Not-USA" else r.country
  let dr := if r.draft_round = "Undrafted" then "0" else r.draft_round
  some ⟨team, bd, h, w, sal, country, dy, dr, r.version⟩

/-- Rebuild the dataframe from cleaned rows (columns in CSV order
restricted to the modelled columns). -/
def cleanTableOf (rs : List CleanRow) : Table :=
  [ ("team", .str (rs.map (·.team))),
    ("b_day", .dt (rs.map (·.b_day))),
    ("height", .num (rs.map (·.height))),
    ("weight", .num (rs.map (·.weight))),
    ("salary", .num (rs.map (·.salary))),
    ("country", .str (rs.map (·.country))),
    ("draft_year", .dt (rs.map (·.draft_year))),
    ("draft_round", .str (rs.map (·.draft_round))),
    ("version", .str (rs.map (·.version))) ]

/-- `clean_data`: parse/normalize every column; any parse failure is
fatal. -/
def clean_data (rows : List RawRow) : Option Table :=
  (rows.mapM cleanRow).map cleanTableOf

/-! ### The FeatureEngineer (`feature_data`)

The first four statements of `feature_data` are in-place column
assignments on the dataframe object the caller passed in
(`df['version'] = …`, `df['age'] = …`, `df['experience'] = …`,
`df['bmi'] = …`); only the subsequent `df.drop` calls rebind the local
name to fresh copies.  `featureMutate` is therefore exactly the state of
the *caller's* dataframe after `feature_data` returns. -/

/-- The caller-visible mutation `feature_data` performs on its argument:
`version` is overwritten with its datetime parse, and `age`,
`experience`, `bmi` are appended (in that order). -/
def featureMutate (t : Table) : Option Table := do
  let vstr ← getStrCol t "version"
  let vdates ← vstr.mapM parseVersion
  let t1 := setCol t "version" (.dt vdates)
  let vyears := vdates.map (·.year)
  let bd ← getDtCol t1 "b_day"
  let ages := List.zipWith (fun vy (d : Date) => ((vy - d.year : Int) : ℚ)) vyears bd
  let t2 := setCol t1 "age" (.num ages)
  let dy ← getDtCol t2 "draft_year"
  let exper := List.zipWith (fun vy (d : Date) => ((vy - d.year : Int) : ℚ)) vyears dy
  let t3 := setCol t2 "experience" (.num exper)
  let w ← getNumCol t3 "weight"
  let hgt ← getNumCol t3 "height"
  -- weight / height²; pandas yields `inf` for a zero height; heights in
  -- this dataset are parsed positive metric values, and no claim touches
  -- a zero height.
  let bmi := List.zipWith (fun (a b : ℚ) => qdiv a (b ^ 2)) w hgt
  some (setCol t3 "bmi" (.num bmi))

/-- The columns consumed by the derivations and dropped afterwards. -/
def consumedCols : List String :=
  ["draft_year", "b_day", "weight", "height", "version"]

/-- `feature_data`: derive `age`/`experience`/`bmi`, drop the consumed
columns (plain `df.drop`, a `KeyError` if one is absent), then drop every
categorical column with 50 or more distinct values. -/
def feature_data (t : Table) : Option Table := do
  let t4 ← featureMutate t
  if consumedCols.all (fun nm => nm ∈ names t4) then
    let t5 := dropCols t4 consumedCols
    let toDrop := (strCols t5).filterMap
      (fun p => if 50 ≤ nunique p.2 then some p.1 else none)
    some (dropCols t5 toDrop)
  else none

/-! ### The CollinearityFilter (`multicol_data`)

`df_corr = numeric_df.corr()` is computed once; the nested loop then
iterates over all ordered pairs of its labels and drops (with
`errors='ignore'`) one column of every pair whose absolute correlation
exceeds 0.5.  The matrix is passed explicitly (`Mat`); a `none` entry is
a NaN (every comparison involving it is false, as for floats). -/

/-- The correlation matrix: entry lookup by (row label, column label);
`none` is NaN. -/
abbrev Mat := String → String → Option ℚ

/-- `abs(entry) > 0.5`; false on NaN. -/
def cAbsGtHalf : Option ℚ → Bool
  | none => false
  | some q => decide (mkRat 1 2 < |q|)

/-- `a > b` on matrix entries; false if either is NaN. -/
def cGT : Option ℚ → Option ℚ → Bool
  | some a, some b => decide (b < a)
  | _, _ => false

/-- The guard of the inner `if`: `i != 'salary' and col != 'salary' and
i != col and abs(df_corr.loc[i, col]) > 0.5`. -/
def fires (C : Mat) (p : String × String) : Bool :=
  !(p.1 == "salary") && !(p.2 == "salary") && !(p.1 == p.2)
    && cAbsGtHalf (C p.1 p.2)

/-- The column a firing pair drops: `col` when
`df_corr.loc[i,'salary'] > df_corr.loc[col,'salary']`, else `i`. -/
def dropTarget (C : Mat) (p : String × String) : String :=
  if cGT (C p.1 "salary") (C p.2 "salary") then p.2 else p.1

/-- All ordered label pairs, outer loop over `df_corr.index`, inner over
`df_corr.columns` (both are the numeric column labels, in order). -/
def pairList (l : List String) : List (String × String) :=
  l.flatMap (fun i => l.map (fun j => (i, j)))

/-- One iteration of the nested loop body.  When a pair fires, the two
`df_corr.loc[_, 'salary']` lookups raise a `KeyError` (`none`) unless
`'salary'` is a label of the correlation matrix. -/
def scanStep (nums : List String) (C : Mat) (t : Table)
    (p : String × String) : Option Table :=
  if fires C p then
    if "salary" ∈ nums then some (dropCol t (dropTarget C p)) else none
  else some t

/-- The nested pair loop. -/
def runScan (nums : List String) (C : Mat) :
    List (String × String) → Table → Option Table
  | [], t => some t
  | p :: ps, t =>
      match scanStep nums C t p with
      | none => none
      | some t' => runScan nums C ps t'

/-- `multicol_data`, with the upfront correlation matrix explicit. -/
def multicol_data (t : Table) (C : Mat) : Option Table :=
  runScan (numsOf t) C (pairList (numsOf t)) t

/-- A column label is dropped by the scan of pair list `ps` iff some
firing pair targets it.  This predicate only reads the upfront matrix. -/
def droppedByList (C : Mat) (ps : List (String × String)) (x : String) : Bool :=
  ps.any (fun p => fires C p && x == dropTarget C p)

/-- The drop set of the whole scan, as a function of the upfront matrix
and the numeric labels alone. -/
def droppedBy (C : Mat) (nums : List String) (x : String) : Bool :=
  droppedByList C (pairList nums) x

/-! #### Pearson correlation, exactly

`df.corr()` divides the covariance by the product of the standard
deviations; an entry is NaN exactly when one of the two columns has zero
squared deviation (constant column, or fewer than two rows).  To stay in
`ℚ` the defining equation is squared and the sign is pinned separately:
`q = cov/(√ssd₁·√ssd₂)` iff `q²·ssd₁·ssd₂ = cov²` and `q`, `cov` share
their sign (the normalising `1/(n-1)` factors cancel). -/

/-- Mean of a column. -/
def qmean (xs : List ℚ) : ℚ := qdiv (qsum xs) (xs.length : ℚ)

/-- Sum of products of deviations from the mean (covariance up to the
`1/(n-1)` factor, which cancels in every correlation). -/
def covS (xs ys : List ℚ) : ℚ :=
  qsum ((xs.zip ys).map (fun p => qmul (qsub p.1 (qmean xs)) (qsub p.2 (qmean ys))))

/-- Sum of squared deviations from the mean. -/
def ssd (xs : List ℚ) : ℚ := covS xs xs

/-- `e` is the Pearson correlation of `xs` and `ys`:
NaN exactly on zero squared deviation, else the exact value in squared
form with matching sign. -/
def corrSpecB (xs ys : List ℚ) (e : Option ℚ) : Bool :=
  match e with
  | none => decide (ssd xs = 0) || decide (ssd ys = 0)
  | some q =>
      !decide (ssd xs = 0) && !decide (ssd ys = 0)
        && decide (qmul (q ^ 2) (qmul (ssd xs) (ssd ys)) = covS xs ys ^ 2)
        && (decide (0 ≤ q) == decide (0 ≤ covS xs ys))

/-- `C` is the correlation matrix `numeric_df.corr()` of `t`. -/
def IsCorrMatrix (t : Table) (C : Mat) : Bool :=
  (numCols t).all (fun a => (numCols t).all (fun b =>
    corrSpecB a.2 b.2 (C a.1 b.1)))

/-! ### The Encoder (`transform_data`)

`StandardScaler` maps a column `v` to `(v - mean)/√(popVar)` (population
variance, `ddof=0`; a constant column gets scale 1, hence all zeros).
`√(popVar)` is irrational in general, so a scaled cell is carried exactly
as the pair (centered value, population variance of its column), from
which the real value is determined; no claim reads a scaled magnitude.
`OneHotEncoder` expands each categorical column into one indicator column
per distinct value (`np.unique`: sorted), and the code names the output
columns by the flattened category labels alone. -/

/-- Population variance (`ddof = 0`), as `StandardScaler` uses. -/
def popVar (xs : List ℚ) : ℚ := qdiv (ssd xs) (xs.length : ℚ)

/-- A column of the final matrix `X`: either a standardized numeric
column — (centered values, population variance of the source column),
representing `centered/√variance` (centered itself when the variance is
zero) — or a one-hot indicator column of plain 0/1 floats. -/
inductive XCol where
  | scaled (centered : List ℚ) (variance : ℚ)
  | onehot (vals : List ℚ)
deriving DecidableEq, Repr

def xLen : XCol → Nat
  | .scaled c _ => c.length
  | .onehot v => v.length

/-- Entry of an indicator column at row `r` (0 outside the column). -/
def ohAt (x : XCol) (r : Nat) : ℚ :=
  match x with
  | .onehot v => v.getD r 0
  | .scaled c _ => c.getD r 0

/-- Lexicographic comparison of strings by code point, the order
`np.unique` sorts by. -/
def lexLe : List Char → List Char → Bool
  | [], _ => true
  | _ :: _, [] => false
  | a :: as, b :: bs => if a < b then true else if b < a then false else lexLe as bs

/-- `np.unique` of a column's values: distinct values, sorted. -/
def sortedUniq (vals : List String) : List String :=
  vals.dedup.insertionSort (fun a b => lexLe a.data b.data = true)

/-- The indicator columns `OneHotEncoder` produces for one categorical
source column, each named by its category label alone (so labels shared
across source columns collide in `X`, as in the code). -/
def oneHotCols (vals : List String) : List (String × XCol) :=
  (sortedUniq vals).map (fun cat =>
    (cat, .onehot (vals.map (fun v => if v = cat then (1 : ℚ) else 0))))

/-- The standardized numeric block, column names preserved. -/
def stdBlock (nums : List (String × List ℚ)) : List (String × XCol) :=
  nums.map (fun p => (p.1, .scaled (p.2.map (fun x => qsub x (qmean p.2))) (popVar p.2)))

/-- The one-hot block: blocks of all categorical columns, concatenated in
column order. -/
def ohBlock (cats : List (String × List String)) : List (String × XCol) :=
  cats.flatMap (fun p => oneHotCols p.2)

/-- `transform_data`: extract `y = df['salary']` (`KeyError` if absent),
drop it, standardize the numeric columns and one-hot expand the
categorical ones, and concatenate the two blocks column-wise.  sklearn
rejects an empty feature set and an empty sample set
(`ensure_min_features`/`ensure_min_samples`), modelled by the guards. -/
def transform_data (t : Table) : Option (List (String × XCol) × ColData) := do
  let y ← getColData t "salary"
  let df := dropCol t "salary"
  let nums := numCols df
  let cats := strCols df
  if nums.isEmpty || cats.isEmpty
      || nums.any (fun p => p.2.isEmpty) || cats.any (fun p => p.2.isEmpty) then
    none
  else
    some (stdBlock nums ++ ohBlock cats, y)

/-! ### Membership lemmas for the table accessors -/

lemma numCols_mem {t : Table} {x : String} {v : List ℚ} :
    (x, v) ∈ numCols t ↔ (x, ColData.num v) ∈ t := by
  unfold numCols
  rw [List.mem_filterMap]
  constructor
  · rintro ⟨⟨nm, cd⟩, hmem, heq⟩
    cases cd <;> simp_all
  · intro hmem
    exact ⟨(x, .num v), hmem, rfl⟩

lemma strCols_mem {t : Table} {x : String} {v : List String} :
    (x, v) ∈ strCols t ↔ (x, ColData.str v) ∈ t := by
  unfold strCols
  rw [List.mem_filterMap]
  constructor
  · rintro ⟨⟨nm, cd⟩, hmem, heq⟩
    cases cd <;> simp_all
  · intro hmem
    exact ⟨(x, .str v), hmem, rfl⟩

lemma mem_numsOf {t : Table} {x : String} :
    x ∈ numsOf t ↔ ∃ v, (x, ColData.num v) ∈ t := by
  unfold numsOf
  rw [List.mem_map]
  constructor
  · rintro ⟨⟨nm, v⟩, hmem, rfl⟩
    exact ⟨v, numCols_mem.mp hmem⟩
  · rintro ⟨v, hmem⟩
    exact ⟨(x, v), numCols_mem.mpr hmem, rfl⟩

lemma mem_names {t : Table} {x : String} :
    x ∈ names t ↔ ∃ d, (x, d) ∈ t := by
  unfold names
  rw [List.mem_map]
  constructor
  · rintro ⟨⟨nm, d⟩, hmem, rfl⟩
    exact ⟨d, hmem⟩
  · rintro ⟨d, hmem⟩
    exact ⟨(x, d), hmem, rfl⟩

lemma mem_pairList {l : List String} {i j : String} :
    (i, j) ∈ pairList l ↔ i ∈ l ∧ j ∈ l := by
  unfold pairList
  simp [List.mem_flatMap, List.mem_map, Prod.ext_iff, eq_comm]

/-! ### The scan only reads the upfront matrix -/

/-- The scan's output is the input with exactly the columns in the
matrix-determined drop set removed: every iteration's action depends only
on the upfront matrix, never on the current dataframe. -/
lemma runScan_eq (nums : List String) (C : Mat) :
    ∀ (ps : List (String × String)) (t t' : Table),
      runScan nums C ps t = some t' →
      t' = t.filter (fun c => !droppedByList C ps c.1) := by
  intro ps
  induction ps with
  | nil =>
      intro t t' h
      simp only [runScan, Option.some.injEq] at h
      simp [droppedByList, ← h]
  | cons p ps ih =>
      intro t t' h
      rw [runScan] at h
      cases hf : fires C p with
      | false =>
          rw [scanStep, hf] at h
          simp only [Bool.false_eq_true, if_false] at h
          rw [ih t t' h]
          apply List.filter_congr
          intro c _
          simp [droppedByList, hf]
      | true =>
          rw [scanStep, hf] at h
          simp only [if_true] at h
          by_cases hs : "salary" ∈ nums
          · rw [if_pos hs] at h
            have := ih _ _ h
            rw [this]
            unfold dropCol
            rw [List.filter_filter]
            apply List.filter_congr
            intro c _
            simp only [droppedByList, List.any_cons, hf, Bool.true_and,
              Bool.not_or]
            cases hx : c.1 == dropTarget C p <;>
              cases hy : droppedByList C ps c.1 <;>
              simp_all [droppedByList]
          · rw [if_neg hs] at h
            exact absurd h (by simp)

/-- If `'salary'` is one of the numeric labels, the scan always completes
(the only failure path is the `df_corr.loc[_, 'salary']` lookup). -/
lemma runScan_isSome (nums : List String) (C : Mat)
    (hs : "salary" ∈ nums) :
    ∀ (ps : List (String × String)) (t : Table),
      ∃ t', runScan nums C ps t = some t' := by
  intro ps
  induction ps with
  | nil => intro t; exact ⟨t, rfl⟩
  | cons p ps ih =>
      intro t
      rw [runScan, scanStep]
      cases hf : fires C p
      · simpa using ih t
      · simpa [hs] using ih (dropCol t (dropTarget C p))

/-- Output characterization of `multicol_data`: the result is the input
table minus the columns named by `droppedBy`, a function of the upfront
matrix and the input's numeric labels alone. -/
lemma multicol_data_eq {t : Table} {C : Mat} {t' : Table}
    (h : multicol_data t C = some t') :
    t' = t.filter (fun c => !droppedBy C (numsOf t) c.1) :=
  runScan_eq _ _ _ _ _ h

lemma droppedBy_true_of {C : Mat} {nums : List String}
    {p : String × String} (hp : p ∈ pairList nums)
    (hf : fires C p = true) :
    droppedBy C nums (dropTarget C p) = true := by
  unfold droppedBy droppedByList
  rw [List.any_eq_true]
  exact ⟨p, hp, by simp [hf]⟩

lemma not_mem_names_of_dropped {t : Table} {C : Mat} {t' : Table}
    (h : multicol_data t C = some t') {x : String}
    (hx : droppedBy C (numsOf t) x = true) : x ∉ names t' := by
  intro hmem
  obtain ⟨d, hd⟩ := mem_names.mp hmem
  rw [multicol_data_eq h] at hd
  have := (List.mem_filter.mp hd).2
  simp only [Bool.not_eq_true'] at this
  rw [hx] at this
  exact Bool.true_eq_false ▸ this.symm ▸ (by simp at this)

lemma numsOf_output_subset {t : Table} {C : Mat} {t' : Table}
    (h : multicol_data t C = some t') : numsOf t' ⊆ numsOf t := by
  intro x hx
  obtain ⟨v, hv⟩ := mem_numsOf.mp hx
  rw [multicol_data_eq h] at hv
  exact mem_numsOf.mpr ⟨v, (List.mem_filter.mp hv).1⟩

/-! ### Claim theorems: the CollinearityFilter -/

/-- **C1.** For every input table on which `multicol_data` succeeds, no
two numeric columns remaining in its output, both distinct from the
target `'salary'`, have an absolute pairwise correlation exceeding 0.5 in
the correlation matrix computed upfront on the input's numeric columns:
whenever such a pair fires, the scan drops one of its two columns, and
drops are never undone. -/
theorem multicol_no_high_corr_pair_remains
    (t : Table) (C : Mat) (t' : Table) (i j : String)
    (h : multicol_data t C = some t')
    (hi : i ∈ numsOf t') (hj : j ∈ numsOf t')
    (hij : i ≠ j) (his : i ≠ "salary") (hjs : j ≠ "salary") :
    cAbsGtHalf (C i j) = false := by
  by_contra habs
  rw [Bool.not_eq_false] at habs
  have hit : i ∈ numsOf t := numsOf_output_subset h hi
  have hjt : j ∈ numsOf t := numsOf_output_subset h hj
  have hpair : (i, j) ∈ pairList (numsOf t) := mem_pairList.mpr ⟨hit, hjt⟩
  have hf : fires C (i, j) = true := by
    simp [fires, his, hjs, hij, habs]
  have hdrop := droppedBy_true_of hpair hf
  have hnames : ∀ x ∈ numsOf t', x ∈ names t' := by
    intro x hx
    obtain ⟨v, hv⟩ := mem_numsOf.mp hx
    exact mem_names.mpr ⟨_, hv⟩
  unfold dropTarget at hdrop
  cases hg : cGT (C i "salary") (C j "salary") with
  | true =>
      rw [hg] at hdrop
      simp only [if_true] at hdrop
      exact not_mem_names_of_dropped h hdrop (hnames j hj)
  | false =>
      rw [hg] at hdrop
      simp only [Bool.false_eq_true, if_false] at hdrop
      exact not_mem_names_of_dropped h hdrop (hnames i hi)

/-- Witness for C1 on a concrete table and matrix (no pair exceeds 0.5,
so the filter keeps everything and the conclusion is checkable). -/
def tW1 : Table :=
  [("a", .num [1, 2]), ("b", .num [1, 2]), ("salary", .num [1, 2])]

def CW1 : Mat := fun i j => if i = j then some 1 else some (mkRat 2 5)

theorem multicol_no_high_corr_pair_remains_witness :
    multicol_data tW1 CW1 = some tW1 ∧ cAbsGtHalf (CW1 "a" "b") = false :=
  ⟨by decide,
   multicol_no_high_corr_pair_remains tW1 CW1 tW1 "a" "b" (by decide)
     (by decide) (by decide) (by decide) (by decide) (by decide)⟩

/-- **C2.** The scan uses only the correlation matrix computed upfront —
the output is the input minus a drop set that is a function of that
matrix and the input's numeric labels alone (so correlations are never
recomputed after a drop) — and for every ordered pair of distinct
non-target numeric columns (i, j) whose absolute correlation exceeds
0.5, the column whose *signed* correlation with `'salary'` is strictly
lower is dropped from the output. -/
theorem multicol_drops_lower_target_corr
    (t : Table) (C : Mat) (t' : Table)
    (h : multicol_data t C = some t') :
    t' = t.filter (fun c => !droppedBy C (numsOf t) c.1) ∧
    ∀ i j a b, i ∈ numsOf t → j ∈ numsOf t → i ≠ j →
      i ≠ "salary" → j ≠ "salary" → cAbsGtHalf (C i j) = true →
      C i "salary" = some a → C j "salary" = some b →
      (b < a → j ∉ names t') ∧ (a < b → i ∉ names t') := by
  refine ⟨multicol_data_eq h, ?_⟩
  intro i j a b hi hj hij his hjs habs ha hb
  have hpair : (i, j) ∈ pairList (numsOf t) := mem_pairList.mpr ⟨hi, hj⟩
  have hf : fires C (i, j) = true := by
    simp [fires, his, hjs, hij, habs]
  constructor
  · intro hba
    have hg : cGT (C i "salary") (C j "salary") = true := by
      rw [ha, hb]; simpa [cGT] using hba
    have hdrop := droppedBy_true_of hpair hf
    unfold dropTarget at hdrop
    rw [hg] at hdrop
    simp only [if_true] at hdrop
    exact not_mem_names_of_dropped h hdrop
  · intro hab
    have hg : cGT (C i "salary") (C j "salary") = false := by
      rw [ha, hb]; simp [cGT]; exact le_of_lt hab
    have hdrop := droppedBy_true_of hpair hf
    unfold dropTarget at hdrop
    rw [hg] at hdrop
    simp only [Bool.false_eq_true, if_false] at hdrop
    exact not_mem_names_of_dropped h hdrop

/-- Witness for C2: `b` correlates 0.9 with `a` and has lower target
correlation (1/4 vs 3/4), so `b` is gone from the output. -/
def CW2 : Mat := fun i j =>
  if i = j then some 1
  else if (i = "a" && j = "b") || (i = "b" && j = "a") then some (mkRat 9 10)
  else if i = "a" || j = "a" then some (mkRat 3 4)
  else some (mkRat 1 4)

def tW2' : Table := [("a", .num [1, 2]), ("salary", .num [1, 2])]

theorem multicol_drops_lower_target_corr_witness :
    multicol_data tW1 CW2 = some tW2' ∧
    (tW2' = tW1.filter (fun c => !droppedBy CW2 (numsOf tW1) c.1) ∧
     ∀ i j a b, i ∈ numsOf tW1 → j ∈ numsOf tW1 → i ≠ j →
       i ≠ "salary" → j ≠ "salary" → cAbsGtHalf (CW2 i j) = true →
       CW2 i "salary" = some a → CW2 j "salary" = some b →
       (b < a → j ∉ names tW2') ∧ (a < b → i ∉ names tW2')) :=
  ⟨by decide, multicol_drops_lower_target_corr tW1 CW2 tW2' (by decide)⟩

/-- **C10.** When a firing pair's two columns have exactly equal (signed)
correlation with the target, both are removed: the scan visits both
ordered orientations of the pair, and the strict `>` comparison sends
each visit to the `else` branch, which drops the first element of that
visit. -/
theorem multicol_equal_target_corr_drops_both
    (t : Table) (C : Mat) (t' : Table) (i j : String) (v : ℚ)
    (h : multicol_data t C = some t')
    (hi : i ∈ numsOf t) (hj : j ∈ numsOf t)
    (hij : i ≠ j) (his : i ≠ "salary") (hjs : j ≠ "salary")
    (habs : cAbsGtHalf (C i j) = true) (hsym : C j i = C i j)
    (hvi : C i "salary" = some v) (hvj : C j "salary" = some v) :
    i ∉ names t' ∧ j ∉ names t' := by
  have hg : cGT (C i "salary") (C j "salary") = false := by
    rw [hvi, hvj]; simp [cGT]
  have hg' : cGT (C j "salary") (C i "salary") = false := by
    rw [hvi, hvj]; simp [cGT]
  constructor
  · have hpair : (i, j) ∈ pairList (numsOf t) := mem_pairList.mpr ⟨hi, hj⟩
    have hf : fires C (i, j) = true := by
      simp [fires, his, hjs, hij, habs]
    have hdrop := droppedBy_true_of hpair hf
    unfold dropTarget at hdrop
    rw [hg] at hdrop
    simp only [Bool.false_eq_true, if_false] at hdrop
    exact not_mem_names_of_dropped h hdrop
  · have hpair : (j, i) ∈ pairList (numsOf t) := mem_pairList.mpr ⟨hj, hi⟩
    have hf : fires C (j, i) = true := by
      simp [fires, his, hjs, Ne.symm hij, hsym, habs]
    have hdrop := droppedBy_true_of hpair hf
    unfold dropTarget at hdrop
    rw [hg'] at hdrop
    simp only [Bool.false_eq_true, if_false] at hdrop
    exact not_mem_names_of_dropped h hdrop

/-- Witness for C10: equal target correlations wipe out both `a` and
`b`. -/
def CW10 : Mat := fun i j =>
  if i = j then some 1
  else if (i = "a" && j = "b") || (i = "b" && j = "a") then some (mkRat 9 10)
  else some (mkRat 1 3)

def tW10' : Table := [("salary", .num [1, 2])]

theorem multicol_equal_target_corr_drops_both_witness :
    multicol_data tW1 CW10 = some tW10' ∧
    "a" ∉ names tW10' ∧ "b" ∉ names tW10' :=
  ⟨by decide,
   (multicol_equal_target_corr_drops_both tW1 CW10 tW10' "a" "b" (mkRat 1 3)
      (by decide) (by decide) (by decide) (by decide) (by decide)
      (by decide) (by decide) (by decide) (by decide) (by decide)).1,
   (multicol_equal_target_corr_drops_both tW1 CW10 tW10' "a" "b" (mkRat 1 3)
      (by decide) (by decide) (by decide) (by decide) (by decide)
      (by decide) (by decide) (by decide) (by decide) (by decide)).2⟩

/-! ### Claim theorems: the Cleaner -/

/-- The end-to-end scenario row of the spec, with the salary string
exactly as the claim gives it: `"$7,000,000"`.  The claim does not fix
`team`, which is irrelevant to it. -/
def rowC3 : RawRow :=
  { team := some "Mavericks", b_day := "6/15/90", height := "6-9 / 2.06 m",
    weight := "240 / 108.9 kg", salary := "$7,000,000", country := "Slovenia",
    draft_year := "2011", draft_round := "Undrafted", version := "NBA2k20" }

/-- The same row with the only value the counterexample forces changed:
a comma-free salary string. -/
def rowC3' : RawRow := { rowC3 with salary := "$7000000" }

/-- **C3, counterexample.** On the claim's exact row the Cleaner does not
produce `salary = 7000000.0`: stripping `$` from `"$7,000,000"` leaves
`"7,000,000"`, which is not a valid float literal (Python's
`float('7,000,000')` raises `ValueError`), so `clean_data` fails. -/
theorem clean_data_comma_salary_fails :
    clean_data [rowC3] = none ∧
    parseFloat (stripDollar "$7,000,000") = none := by decide

/-- The cleaned table of the amended scenario row. -/
def tC3clean : Table :=
  [ ("team", .str ["Mavericks"]),
    ("b_day", .dt [⟨1990, 6, 15⟩]),
    ("height", .num [mkRat 103 50]),
    ("weight", .num [mkRat 1089 10]),
    ("salary", .num [7000000]),
    ("country", .str ["Not-USA"]),
    ("draft_year", .dt [⟨2011, 1, 1⟩]),
    ("draft_round", .str ["0"]),
    ("version", .str ["NBA2k20"]) ]

/-- The feature table of the amended scenario row. -/
def tC3feat : Table :=
  [ ("team", .str ["Mavericks"]),
    ("salary", .num [7000000]),
    ("country", .str ["Not-USA"]),
    ("draft_round", .str ["0"]),
    ("age", .num [30]),
    ("experience", .num [9]),
    ("bmi", .num [mkRat 272250 10609]) ]

/-- **C3 (amended: the salary string must be comma-free, `"$7000000"`;
everything else is as claimed).** The Cleaner maps the scenario row to
height 2.06 (= 103/50), weight 108.9 (= 1089/10), salary 7000000.0,
country `"Not-USA"`, draft_round `"0"`, and the FeatureEngineer then
yields age = 2020 − 1990 = 30, experience = 2020 − 2011 = 9, and
bmi = 108.9/2.06² = 272250/10609 ≈ 25.66. -/
theorem clean_feature_scenario_row :
    clean_data [rowC3'] = some tC3clean ∧
    getNumCol tC3clean "height" = some [mkRat 103 50] ∧
    getNumCol tC3clean "weight" = some [mkRat 1089 10] ∧
    getNumCol tC3clean "salary" = some [7000000] ∧
    getStrCol tC3clean "country" = some ["Not-USA"] ∧
    getStrCol tC3clean "draft_round" = some ["0"] ∧
    feature_data tC3clean = some tC3feat ∧
    getNumCol tC3feat "age" = some [30] ∧
    getNumCol tC3feat "experience" = some [9] ∧
    getNumCol tC3feat "bmi" = some [qdiv (mkRat 1089 10) (mkRat 103 50 ^ 2)] ∧
    qdiv (mkRat 1089 10) (mkRat 103 50 ^ 2) = mkRat 272250 10609 := by decide

/-- The numeric token of a valid raw cell: nonempty, only digits and
dots (the formats of §3 of the spec carry no sign, so a valid metric or
salary token is an unsigned decimal literal). -/
def isUnsignedTok (cs : List Char) : Bool :=
  !cs.isEmpty && cs.all (fun c => c.isDigit || c = '.')

lemma parseUnsignedFloat_nonneg {cs : List Char} {q : ℚ}
    (h : parseUnsignedFloat cs = some q) : 0 ≤ q := by
  unfold parseUnsignedFloat at h
  dsimp only at h
  split at h
  · split at h
    · exact absurd h (by simp)
    · obtain rfl : mkRat _ 1 = q := by simpa using h
      rw [Rat.mkRat_eq_divInt, Rat.divInt_eq_div]
      positivity
  · split at h
    · obtain rfl : mkRat _ _ = q := by simpa using h
      rw [Rat.mkRat_eq_divInt, Rat.divInt_eq_div]
      positivity
    · exact absurd h (by simp)
  · exact absurd h (by simp)

lemma parseFloatChars_nonneg {cs : List Char} {q : ℚ}
    (hu : isUnsignedTok cs = true) (h : parseFloatChars cs = some q) : 0 ≤ q := by
  rcases cs with _ | ⟨c, rest⟩
  · exact absurd h (by simp [parseFloatChars])
  · simp only [parseFloatChars] at h
    have hc : (c.isDigit || c = '.') = true := by
      simp only [isUnsignedTok, List.all_cons, Bool.and_eq_true] at hu
      exact hu.2.1
    have h1 : c ≠ '-' := by
      rintro rfl
      rcases Bool.or_eq_true _ _ |>.mp hc with hdig | hdot
      · simp [Char.isDigit] at hdig
      · simp at hdot
    have h2 : c ≠ '+' := by
      rintro rfl
      rcases Bool.or_eq_true _ _ |>.mp hc with hdig | hdot
      · simp [Char.isDigit] at hdig
      · simp at hdot
    rw [if_neg h1, if_neg h2] at h
    exact parseUnsignedFloat_nonneg h

/-- **C4.** For every valid input row — validity taken from §3's raw
schema: the extracted height/weight metric tokens and the `$`-stripped
salary are unsigned decimal literals — the Cleaner's output has `height`,
`weight`, `salary` as (exactly-represented) floats that are `≥ 0`,
`country` either `"USA"` or `"Not-USA"`, `draft_round` never
`"Undrafted"`, and a missing `team` filled with `"No Team"` (so `team`
has no missing value). -/
theorem clean_row_invariants (r : RawRow) (c : CleanRow)
    (h : cleanRow r = some c)
    (hh : (measureTok r.height).all isUnsignedTok = true)
    (hw : (measureTok r.weight).all isUnsignedTok = true)
    (hs : isUnsignedTok (stripDollar r.salary).data = true) :
    0 ≤ c.height ∧ 0 ≤ c.weight ∧ 0 ≤ c.salary ∧
    (c.country = "USA" ∨ c.country = "Not-USA") ∧
    c.draft_round ≠ "Undrafted" ∧
    (r.team = none → c.team = "No Team") := by
  simp only [cleanRow, Option.bind_eq_bind, Option.bind_eq_some,
    Option.some.injEq] at h
  obtain ⟨bd, hbd, dy, hdy, hq, hhq, wq, hwq, sq, hsq, hc⟩ := h
  subst hc
  refine ⟨?_, ?_, ?_, ?_, ?_, ?_⟩
  · obtain ⟨tok, htok, hparse⟩ := Option.bind_eq_some.mp hhq
    rw [htok] at hh
    exact parseFloatChars_nonneg (by simpa using hh) hparse
  · obtain ⟨tok, htok, hparse⟩ := Option.bind_eq_some.mp hwq
    rw [htok] at hw
    exact parseFloatChars_nonneg (by simpa using hw) hparse
  · exact parseFloatChars_nonneg hs hsq
  · by_cases husa : r.country = "USA"
    · left; simp [husa]
    · right; simp [husa]
  · by_cases hud : r.draft_round = "Undrafted"
    · simp [hud]
    · simp [hud]
  · intro hteam
    simp [hteam]

/-- The cleaned row of the amended scenario row, for the C4 witness. -/
def cC4 : CleanRow :=
  { team := "Mavericks", b_day := ⟨1990, 6, 15⟩, height := mkRat 103 50,
    weight := mkRat 1089 10, salary := 7000000, country := "Not-USA",
    draft_year := ⟨2011, 1, 1⟩, draft_round := "0", version := "NBA2k20" }

theorem clean_row_invariants_witness :
    cleanRow rowC3' = some cC4 ∧
    (0 ≤ cC4.height ∧ 0 ≤ cC4.weight ∧ 0 ≤ cC4.salary ∧
     (cC4.country = "USA" ∨ cC4.country = "Not-USA") ∧
     cC4.draft_round ≠ "Undrafted" ∧
     (rowC3'.team = none → cC4.team = "No Team")) :=
  ⟨by decide,
   clean_row_invariants rowC3' cC4 (by decide) (by decide) (by decide)
     (by decide)⟩

/-! ### Claim theorems: the FeatureEngineer -/

/-- **C5.** Whenever `feature_data` succeeds, its output contains none of
the consumed source columns `draft_year`, `b_day`, `weight`, `height`,
`version`, and every categorical/string column of the output has fewer
than 50 distinct values (the cardinality scan runs after the source
columns are dropped). -/
lemma contains_eq_true_iff {l : List String} {a : String} :
    l.contains a = true ↔ a ∈ l := List.elem_iff

theorem feature_data_output_columns (t t' : Table)
    (h : feature_data t = some t') :
    (∀ nm ∈ consumedCols, nm ∉ names t') ∧
    (∀ pr ∈ strCols t', nunique pr.2 < 50) := by
  simp only [feature_data, Option.bind_eq_bind, Option.bind_eq_some] at h
  obtain ⟨t4, hm, hif⟩ := h
  split at hif
  · simp only [Option.some.injEq] at hif
    subst hif
    constructor
    · intro nm hnm hmem
      obtain ⟨d, hd⟩ := mem_names.mp hmem
      have h5 := (List.mem_filter.mp hd).1
      have hnc := (List.mem_filter.mp h5).2
      simp only [Bool.not_eq_true'] at hnc
      have := contains_eq_true_iff.mpr hnm
      rw [hnc] at this
      exact absurd this (by decide)
    · rintro ⟨nm, vs⟩ hpr
      by_contra hge
      push_neg at hge
      have hd := strCols_mem.mp hpr
      have hmem5 := (List.mem_filter.mp hd).1
      have hnotdrop := (List.mem_filter.mp hd).2
      simp only [Bool.not_eq_true'] at hnotdrop
      have hin : nm ∈ (strCols (dropCols t4 consumedCols)).filterMap
          (fun p => if 50 ≤ nunique p.2 then some p.1 else none) := by
        refine List.mem_filterMap.mpr ⟨(nm, vs), strCols_mem.mpr hmem5, ?_⟩
        rw [if_pos hge]
      have := contains_eq_true_iff.mpr hin
      rw [hnotdrop] at this
      exact absurd this (by decide)
  · exact absurd hif (by simp)

theorem feature_data_output_columns_witness :
    feature_data tC3clean = some tC3feat ∧
    ((∀ nm ∈ consumedCols, nm ∉ names tC3feat) ∧
     (∀ pr ∈ strCols tC3feat, nunique pr.2 < 50)) :=
  ⟨by decide, feature_data_output_columns tC3clean tC3feat (by decide)⟩

/-! ### Claim theorems: in-place mutation (C6) -/

lemma getColData_mem {t : Table} {x : String} {d : ColData}
    (h : getColData t x = some d) : (x, d) ∈ t := by
  unfold getColData at h
  cases hf : t.find? (fun c => c.1 == x) with
  | none => rw [hf] at h; exact absurd h (by simp)
  | some c =>
      rw [hf] at h
      simp at h
      have hmem := List.mem_of_find?_eq_some hf
      have hpred := List.find?_some hf
      simp only [beq_iff_eq] at hpred
      have : c = (x, d) := by
        cases c
        simp only at hpred h
        rw [hpred, h]
      rw [← this]
      exact hmem

lemma names_setCol_of_mem {t : Table} {x : String} {d : ColData}
    (h : x ∈ names t) : names (setCol t x d) = names t := by
  unfold setCol
  rw [if_pos h]
  unfold names
  rw [List.map_map]
  apply List.map_congr_left
  intro c _
  by_cases hcx : c.1 = x <;> simp [hcx]

lemma setCol_of_not_mem {t : Table} {x : String} {d : ColData}
    (h : x ∉ names t) : setCol t x d = t ++ [(x, d)] := by
  unfold setCol
  rw [if_neg h]

lemma mem_setCol_of_ne {t : Table} {p : String × ColData} {x : String}
    {d : ColData} (hp : p ∈ t) (hne : p.1 ≠ x) : p ∈ setCol t x d := by
  unfold setCol
  split
  · have := List.mem_map_of_mem (fun c => if c.1 = x then (x, d) else c) hp
    simpa [hne] using this
  · exact List.mem_append_left _ hp

/-- **C6 (amended).** The FeatureEngineer *does* mutate the dataframe
passed to it: the first four statements of `feature_data` assign columns
on the caller's object in place.  After the call the caller's table has
`version` overwritten (datetime-parsed) and `age`, `experience`, `bmi`
appended at the end, while all other columns are untouched.
(`multicol_data` and `transform_data` only use copying operations —
`drop`, `select_dtypes`, `fit_transform`, `concat` — so they leave their
inputs unchanged; the claim fails only for the FeatureEngineer.) -/
theorem feature_data_mutates_input (t t4 : Table)
    (h : featureMutate t = some t4)
    (ha : "age" ∉ names t) (he : "experience" ∉ names t)
    (hb : "bmi" ∉ names t) :
    names t4 = names t ++ ["age", "experience", "bmi"] ∧
    ∀ p ∈ t, p.1 ≠ "version" → p ∈ t4 := by
  simp only [featureMutate, Option.bind_eq_bind, Option.bind_eq_some,
    Option.some.injEq] at h
  obtain ⟨vstr, hv, vdates, hvd, bd, hbd, dy, hdy, w, hw, hgt, hhgt, heq⟩ := h
  have hver : "version" ∈ names t := by
    have : getColData t "version" = some (.str vstr) := by
      unfold getStrCol at hv
      cases hg : getColData t "version" with
      | none => rw [hg] at hv; exact absurd hv (by simp)
      | some d =>
          rw [hg] at hv
          cases d <;> simp_all
    exact mem_names.mpr ⟨_, getColData_mem this⟩
  set t1 := setCol t "version" (.dt vdates) with ht1
  have hn1 : names t1 = names t := names_setCol_of_mem hver
  have ha1 : "age" ∉ names t1 := by rw [hn1]; exact ha
  set t2 := setCol t1 "age"
      (.num (List.zipWith (fun vy d => ((vy - d.year : Int) : ℚ))
        (vdates.map (·.year)) bd)) with ht2
  have ht2' : t2 = t1 ++ [("age", _)] := setCol_of_not_mem ha1
  have hn2 : names t2 = names t ++ ["age"] := by
    rw [ht2', names, List.map_append, ← names, hn1]
    rfl
  have he2 : "experience" ∉ names t2 := by
    rw [hn2]
    simp only [List.mem_append, List.mem_singleton]
    rintro (hmem | hmem)
    · exact he hmem
    · exact absurd hmem (by decide)
  set t3 := setCol t2 "experience"
      (.num (List.zipWith (fun vy d => ((vy - d.year : Int) : ℚ))
        (vdates.map (·.year)) dy)) with ht3
  have ht3' : t3 = t2 ++ [("experience", _)] := setCol_of_not_mem he2
  have hn3 : names t3 = names t ++ ["age", "experience"] := by
    rw [ht3', names, List.map_append, ← names, hn2, List.append_assoc]
    rfl
  have hb3 : "bmi" ∉ names t3 := by
    rw [hn3]
    simp only [List.mem_append, List.mem_cons, List.mem_singleton]
    rintro (hmem | hmem | hmem)
    · exact hb hmem
    · exact absurd hmem (by decide)
    · exact absurd hmem (by decide)
  have ht4 : t4 = t3 ++ [("bmi", .num (List.zipWith (fun a b => qdiv a (b ^ 2)) w hgt))] := by
    rw [← heq]
    exact setCol_of_not_mem hb3
  constructor
  · rw [ht4, names, List.map_append, ← names, hn3, List.append_assoc]
    rfl
  · intro p hp hpne
    have h1 : p ∈ t1 := mem_setCol_of_ne hp hpne
    have h2 : p ∈ t2 := by rw [ht2']; exact List.mem_append_left _ h1
    have h3 : p ∈ t3 := by rw [ht3']; exact List.mem_append_left _ h2
    rw [ht4]
    exact List.mem_append_left _ h3

/-- **C6, counterexample.** `featureMutate` is the caller-visible state
of `feature_data`'s argument after the call; on the cleaned scenario
table it succeeds and differs from the input — the input table is
mutated, contradicting the claim that no stage mutates its input. -/
theorem feature_data_mutates_input_cex :
    (featureMutate tC3clean).isSome = true ∧
    featureMutate tC3clean ≠ some tC3clean := by decide

/-- The caller's table after `feature_data tC3clean` returns. -/
def tC3mut : Table :=
  [ ("team", .str ["Mavericks"]),
    ("b_day", .dt [⟨1990, 6, 15⟩]),
    ("height", .num [mkRat 103 50]),
    ("weight", .num [mkRat 1089 10]),
    ("salary", .num [7000000]),
    ("country", .str ["Not-USA"]),
    ("draft_year", .dt [⟨2011, 1, 1⟩]),
    ("draft_round", .str ["0"]),
    ("version", .dt [⟨2020, 1, 1⟩]),
    ("age", .num [30]),
    ("experience", .num [9]),
    ("bmi", .num [mkRat 272250 10609]) ]

theorem feature_data_mutates_input_witness :
    featureMutate tC3clean = some tC3mut ∧
    (names tC3mut = names tC3clean ++ ["age", "experience", "bmi"] ∧
     ∀ p ∈ tC3clean, p.1 ≠ "version" → p ∈ tC3mut) :=
  ⟨by decide,
   feature_data_mutates_input tC3clean tC3mut (by decide) (by decide)
     (by decide) (by decide)⟩

/-! ### Claim theorems: the Encoder -/

lemma mem_dropCol {t : Table} {p : String × ColData} {x : String} :
    p ∈ dropCol t x ↔ p ∈ t ∧ p.1 ≠ x := by
  unfold dropCol
  rw [List.mem_filter]
  simp

lemma transform_data_eq {t : Table} {X : List (String × XCol)} {y : ColData}
    (h : transform_data t = some (X, y)) :
    getColData t "salary" = some y ∧
    X = stdBlock (numCols (dropCol t "salary"))
        ++ ohBlock (strCols (dropCol t "salary")) := by
  simp only [transform_data, Option.bind_eq_bind, Option.bind_eq_some] at h
  obtain ⟨y0, hy, hif⟩ := h
  split at hif
  · exact absurd hif (by simp)
  · simp only [Option.some.injEq, Prod.mk.injEq] at hif
    obtain ⟨hX, hy0⟩ := hif
    subst hy0
    exact ⟨hy, hX.symm⟩

lemma ohBlock_all_onehot {cats : List (String × List String)}
    {p : String × XCol} (hp : p ∈ ohBlock cats) : ∃ v, p.2 = XCol.onehot v := by
  unfold ohBlock at hp
  obtain ⟨q, _, hq⟩ := List.mem_flatMap.mp hp
  obtain ⟨cat, _, hcat⟩ := List.mem_map.mp hq
  exact ⟨_, by rw [← hcat]⟩

/-- **C7.** Whenever the Encoder succeeds on a table containing the
target column, it returns the `salary` column itself (row order
preserved) as the target vector, the feature matrix contains no scaled
numeric column named `salary` (the target is removed before scaling),
and every column of the feature matrix has exactly as many rows as the
target vector and as the input table. -/
theorem transform_splits_target_preserves_rows (t : Table) (n : Nat)
    (X : List (String × XCol)) (y : ColData)
    (hr : Rect t n) (h : transform_data t = some (X, y)) :
    getColData t "salary" = some y ∧
    colLen y = n ∧
    (∀ p ∈ X, xLen p.2 = n) ∧
    "salary" ∉ X.filterMap (fun p => match p.2 with
      | .scaled _ _ => some p.1
      | .onehot _ => none) := by
  obtain ⟨hy, hX⟩ := transform_data_eq h
  refine ⟨hy, ?_, ?_, ?_⟩
  · exact hr _ (getColData_mem hy)
  · intro p hp
    rw [hX] at hp
    rcases List.mem_append.mp hp with hstd | hoh
    · obtain ⟨q, hq, hqe⟩ := List.mem_map.mp hstd
      obtain ⟨nm, v⟩ := q
      have hv : (nm, ColData.num v) ∈ dropCol t "salary" := numCols_mem.mp hq
      have hn : colLen (ColData.num v) = n := hr _ (mem_dropCol.mp hv).1
      rw [← hqe]
      simpa [xLen] using hn
    · obtain ⟨q, hq, hqoh⟩ := List.mem_flatMap.mp hoh
      obtain ⟨nm, vs⟩ := q
      have hv : (nm, ColData.str vs) ∈ dropCol t "salary" := strCols_mem.mp hq
      have hn : colLen (ColData.str vs) = n := hr _ (mem_dropCol.mp hv).1
      obtain ⟨cat, _, hcat⟩ := List.mem_map.mp hqoh
      rw [← hcat]
      simpa [xLen, oneHotCols] using hn
  · intro hmem
    obtain ⟨p, hp, hfp⟩ := List.mem_filterMap.mp hmem
    rw [hX] at hp
    rcases List.mem_append.mp hp with hstd | hoh
    · obtain ⟨q, hq, hqe⟩ := List.mem_map.mp hstd
      obtain ⟨nm, v⟩ := q
      have hv : (nm, ColData.num v) ∈ dropCol t "salary" := numCols_mem.mp hq
      rw [← hqe] at hfp
      simp only at hfp
      have hnm : nm = "salary" := by simpa using hfp
      exact (mem_dropCol.mp hv).2 hnm
    · obtain ⟨v, hv⟩ := ohBlock_all_onehot hoh
      rw [hv] at hfp
      exact absurd hfp (by simp)

/-- The Encoder witness table: one numeric feature, the target, and two
categorical columns (one of them single-valued). -/
def tW7 : Table :=
  [("num1", .num [1, 2]), ("salary", .num [3, 4]),
   ("cat", .str ["x", "y"]), ("cat2", .str ["u", "u"])]

def XW7 : List (String × XCol) :=
  [("num1", .scaled [mkRat (-1) 2, mkRat 1 2] (mkRat 1 4)),
   ("x", .onehot [1, 0]), ("y", .onehot [0, 1]), ("u", .onehot [1, 1])]

theorem transform_splits_target_preserves_rows_witness :
    Rect tW7 2 ∧ transform_data tW7 = some (XW7, .num [3, 4]) ∧
    (getColData tW7 "salary" = some (.num [3, 4]) ∧
     colLen (ColData.num [3, 4]) = 2 ∧
     (∀ p ∈ XW7, xLen p.2 = 2) ∧
     "salary" ∉ XW7.filterMap (fun p => match p.2 with
       | .scaled _ _ => some p.1
       | .onehot _ => none)) :=
  ⟨by decide, by decide,
   transform_splits_target_preserves_rows tW7 2 XW7 (.num [3, 4])
     (by decide) (by decide)⟩

/-! #### One-hot row sums (C8) -/

lemma sum_ind_of_not_mem {v : String} {l : List String} (h : v ∉ l) :
    (l.map (fun c => if v = c then (1 : ℚ) else 0)).sum = 0 := by
  induction l with
  | nil => rfl
  | cons c l ih =>
      simp only [List.map_cons, List.sum_cons]
      rw [if_neg (by rintro rfl; exact h (List.mem_cons_self _ _)),
        ih (fun hm => h (List.mem_cons_of_mem _ hm)), zero_add]

lemma sum_ind_of_nodup_mem {v : String} {l : List String}
    (hd : l.Nodup) (hm : v ∈ l) :
    (l.map (fun c => if v = c then (1 : ℚ) else 0)).sum = 1 := by
  induction l with
  | nil => cases hm
  | cons c l ih =>
      simp only [List.map_cons, List.sum_cons]
      rcases List.mem_cons.mp hm with rfl | hm'
      · rw [if_pos rfl, sum_ind_of_not_mem (List.nodup_cons.mp hd).1, add_zero]
      · have hvc : v ≠ c := by
          rintro rfl
          exact (List.nodup_cons.mp hd).1 hm'
        rw [if_neg hvc, ih (List.nodup_cons.mp hd).2 hm', zero_add]

lemma sortedUniq_nodup (vals : List String) : (sortedUniq vals).Nodup :=
  (List.perm_insertionSort _ _).nodup_iff.mpr (List.nodup_dedup vals)

lemma mem_sortedUniq {vals : List String} {v : String} :
    v ∈ sortedUniq vals ↔ v ∈ vals := by
  unfold sortedUniq
  rw [List.mem_insertionSort, List.mem_dedup]

/-- **C8.** In the Encoder's output the indicator block is exactly the
per-source-column one-hot expansions, each indicator column named by the
bare category label (so equal labels from different source columns
collide); every indicator entry is 0 or 1; and for every row, the
indicator entries generated from one categorical source column sum to
exactly 1. -/
theorem transform_onehot_partition (t : Table) (n : Nat)
    (X : List (String × XCol)) (y : ColData)
    (hr : Rect t n) (h : transform_data t = some (X, y)) :
    X = stdBlock (numCols (dropCol t "salary"))
        ++ ohBlock (strCols (dropCol t "salary")) ∧
    (∀ pr ∈ strCols (dropCol t "salary"),
      (∀ q ∈ oneHotCols pr.2,
        q.1 ∈ pr.2 ∧ ∃ ind, q.2 = XCol.onehot ind ∧ ∀ x ∈ ind, x = 0 ∨ x = 1) ∧
      (∀ r < n, ((oneHotCols pr.2).map (fun q => ohAt q.2 r)).sum = 1)) := by
  refine ⟨(transform_data_eq h).2, ?_⟩
  rintro ⟨nm, vs⟩ hpr
  have hlen : vs.length = n := by
    have hv : (nm, ColData.str vs) ∈ dropCol t "salary" := strCols_mem.mp hpr
    simpa [colLen] using hr _ (mem_dropCol.mp hv).1
  constructor
  · intro q hq
    obtain ⟨cat, hcat, hq'⟩ := List.mem_map.mp hq
    obtain ⟨hq1, hq2⟩ : cat = q.1 ∧
        XCol.onehot (vs.map (fun v => if v = cat then (1 : ℚ) else 0)) = q.2 := by
      rw [← hq']
      exact ⟨rfl, rfl⟩
    refine ⟨hq1 ▸ mem_sortedUniq.mp hcat, _, hq2.symm, ?_⟩
    intro x hx
    obtain ⟨v, _, hv⟩ := List.mem_map.mp hx
    rw [← hv]
    by_cases hvc : v = cat
    · right
      rw [if_pos hvc]
    · left
      rw [if_neg hvc]
  · intro r hrn
    have hr' : r < vs.length := hlen ▸ hrn
    have hstep : (oneHotCols vs).map (fun q => ohAt q.2 r)
        = (sortedUniq vs).map (fun cat => if vs.getD r "" = cat then (1 : ℚ) else 0) := by
      unfold oneHotCols
      rw [List.map_map]
      refine List.map_congr_left ?_
      intro cat _
      show ohAt (XCol.onehot (vs.map (fun v => if v = cat then (1 : ℚ) else 0))) r = _
      simp only [ohAt]
      rw [List.getD_eq_getElem?_getD, List.getElem?_map,
        List.getElem?_eq_getElem hr', List.getD_eq_getElem?_getD,
        List.getElem?_eq_getElem hr']
      rfl
    rw [hstep]
    refine sum_ind_of_nodup_mem (sortedUniq_nodup vs) (mem_sortedUniq.mpr ?_)
    rw [List.getD_eq_getElem?_getD, List.getElem?_eq_getElem hr']
    exact List.getElem_mem hr'

theorem transform_onehot_partition_witness :
    Rect tW7 2 ∧ transform_data tW7 = some (XW7, .num [3, 4]) ∧
    (XW7 = stdBlock (numCols (dropCol tW7 "salary"))
        ++ ohBlock (strCols (dropCol tW7 "salary")) ∧
     ∀ pr ∈ strCols (dropCol tW7 "salary"),
      (∀ q ∈ oneHotCols pr.2,
        q.1 ∈ pr.2 ∧ ∃ ind, q.2 = XCol.onehot ind ∧ ∀ x ∈ ind, x = 0 ∨ x = 1) ∧
      (∀ r < 2, ((oneHotCols pr.2).map (fun q => ohAt q.2 r)).sum = 1)) :=
  ⟨by decide, by decide,
   transform_onehot_partition tW7 2 XW7 (.num [3, 4]) (by decide) (by decide)⟩

/-! ### Claim theorems: degenerate correlations (C9) -/

/-- The zero-variance scenario table: `z` is constant, `a` and `salary`
are identical (hence perfectly correlated — a rational matrix entry). -/
def tW9 : Table :=
  [("a", .num [1, 2, 3]), ("z", .num [5, 5, 5]), ("salary", .num [1, 2, 3])]

/-- The exact correlation matrix of `tW9`: every entry touching the
zero-variance column `z` is NaN, every other entry is 1. -/
def CW9 : Mat := fun i j => if i = "z" || j = "z" then none else some 1

/-- **C9, counterexample.** A table with a zero-variance numeric column:
its correlations are NaN (`IsCorrMatrix` fixes `CW9` as the exact
correlation matrix of `tW9`), every float comparison with NaN is false,
and `multicol_data` completes normally — returning the table unchanged —
instead of propagating a fatal numeric error as the claim states. -/
theorem multicol_zero_variance_completes_cex :
    ("z" ∈ numsOf tW9 ∧ ssd [5, 5, 5] = 0) ∧
    IsCorrMatrix tW9 CW9 = true ∧
    multicol_data tW9 CW9 = some tW9 := by decide

lemma corrSpecB_none_of_ssd_right {xs ys : List ℚ} {e : Option ℚ}
    (h : corrSpecB xs ys e = true) (hy : ssd ys = 0) : e = none := by
  cases e with
  | none => rfl
  | some q =>
      simp only [corrSpecB, Bool.and_eq_true, Bool.not_eq_true',
        decide_eq_false_iff_not] at h
      exact absurd hy h.1.1.2

lemma corrSpecB_none_of_ssd_left {xs ys : List ℚ} {e : Option ℚ}
    (h : corrSpecB xs ys e = true) (hx : ssd xs = 0) : e = none := by
  cases e with
  | none => rfl
  | some q =>
      simp only [corrSpecB, Bool.and_eq_true, Bool.not_eq_true',
        decide_eq_false_iff_not] at h
      exact absurd hx h.1.1.1

/-- **C9 (amended).** On an input with a zero-variance numeric column
`z`, the filter does not raise: the correlation entries involving `z`
are NaN, a NaN comparison is false, so no pair involving `z` ever fires;
whenever `'salary'` is among the numeric columns the scan runs to
completion and `z` is still a column of the output. -/
theorem multicol_zero_variance_completes (t : Table) (C : Mat)
    (z : String) (zv : List ℚ)
    (hC : IsCorrMatrix t C = true)
    (hz : (z, zv) ∈ numCols t) (hzv : ssd zv = 0)
    (hsal : "salary" ∈ numsOf t) :
    ∃ t', multicol_data t C = some t' ∧ z ∈ names t' := by
  obtain ⟨t', ht'⟩ := runScan_isSome (numsOf t) C hsal (pairList (numsOf t)) t
  refine ⟨t', ht', ?_⟩
  have hCz : ∀ i ∈ numsOf t, C i z = none ∧ C z i = none := by
    intro i hi
    obtain ⟨iv, hiv⟩ := mem_numsOf.mp hi
    have hall := List.all_eq_true.mp hC (i, iv) (numCols_mem.mpr hiv)
    have hall2 := List.all_eq_true.mp hall (z, zv) hz
    have hall' := List.all_eq_true.mp hC (z, zv) hz
    have hall2' := List.all_eq_true.mp hall' (i, iv) (numCols_mem.mpr hiv)
    exact ⟨corrSpecB_none_of_ssd_right hall2 hzv,
           corrSpecB_none_of_ssd_left hall2' hzv⟩
  have hzdrop : droppedByList C (pairList (numsOf t)) z = false := by
    rw [droppedByList, List.any_eq_false]
    rintro ⟨i, j⟩ hp hcontra
    rw [Bool.and_eq_true] at hcontra
    obtain ⟨hfi, hzeq⟩ := hcontra
    have hij := mem_pairList.mp hp
    have habs : cAbsGtHalf (C i j) = true := by
      simp only [fires, Bool.and_eq_true] at hfi
      exact hfi.2
    have hzt : z = dropTarget C (i, j) := by simpa using hzeq
    have hzij : z = i ∨ z = j := by
      unfold dropTarget at hzt
      by_cases hg : cGT (C i "salary") (C j "salary") = true
      · right; rw [hg] at hzt; simpa using hzt
      · left
        rw [Bool.not_eq_true] at hg
        rw [hg] at hzt
        simpa using hzt
    rcases hzij with rfl | rfl
    · rw [(hCz j hij.2).2] at habs
      exact absurd habs (by simp [cAbsGtHalf])
    · rw [(hCz i hij.1).1] at habs
      exact absurd habs (by simp [cAbsGtHalf])
  have hzt : (z, ColData.num zv) ∈ t := numCols_mem.mp hz
  rw [runScan_eq _ _ _ _ _ ht']
  refine mem_names.mpr ⟨_, List.mem_filter.mpr ⟨hzt, ?_⟩⟩
  show (!droppedByList C (pairList (numsOf t)) z) = true
  rw [hzdrop]
  rfl

theorem multicol_zero_variance_completes_witness :
    (IsCorrMatrix tW9 CW9 = true ∧ ("z", [5, 5, 5]) ∈ numCols tW9 ∧
     ssd [5, 5, 5] = 0 ∧ "salary" ∈ numsOf tW9) ∧
    (∃ t', multicol_data tW9 CW9 = some t' ∧ "z" ∈ names t') :=
  ⟨⟨by decide, by decide, by decide, by decide⟩,
   multicol_zero_variance_completes tW9 CW9 "z" [5, 5, 5] (by decide)
     (by decide) (by decide) (by decide)⟩

end NBA
